import Mathlib

/-!
Verification of the PNG metadata codec of `src/index.tsx`.

The codec consists of three functions:
  * `crcTable` / `crc32`  — the CRC-32/PNG checksum primitive;
  * `writePngMetadata`    — inserts a `tEXt` chunk carrying `key || 0x00 || value`
                            immediately after the `IHDR` chunk of a PNG byte stream;
  * `extractPngMetadata`  — walks the chunk stream and returns the text payload of the
                            first `tEXt` chunk whose keyword is `"parameters"` or
                            `"BananaProData"`.

Modelling conventions:
  * byte buffers (`Uint8Array` / `ArrayBuffer`) are `List Nat` (entries are byte values);
  * JavaScript strings that cross the codec boundary are represented by their UTF-8 byte
    sequences (`TextEncoder.encode`); the values returned through `TextDecoder.decode` are
    represented by the UTF-8 bytes of the resulting string.  `TextDecoder` (with its default
    configuration) removes one leading byte-order mark EF BB BF from its input; this is
    modelled by `bomStrip` for returned text and by `kwEq` for keyword comparisons.  Its
    replacement of invalid UTF-8 sequences by U+FFFD is not observable in any claim proved
    here and is not modelled.
  * `DataView.getUint32` throws a `RangeError` when fewer than 4 bytes are available at the
    requested offset, and `Uint8Array.set` throws when the written range exceeds the target;
    both codec functions are therefore embedded in `Except Unit`, `.error ()` marking a
    thrown exception.  `Uint8Array.slice` clamps and never throws, matching `List.take` /
    `List.drop`.
  * the `while` loops are embedded as fuel-indexed recursions; both loops advance their
    cursor by at least 12 bytes per iteration, so a fuel of `b.length` is sufficient, which
    the invariant `b.length ≤ fuel + cursor` makes precise.
-/

set_option maxRecDepth 100000

/-- Big-endian value of a byte list (most significant byte first). -/
def beVal (l : List Nat) : Nat := l.foldl (fun a x => 256 * a + x) 0

/-- The four big-endian bytes written by `DataView.setUint32(_, n, false)`;
JavaScript first converts `n` to an unsigned 32-bit integer. -/
def u32be (n : Nat) : List Nat :=
  [n % 4294967296 / 16777216, n % 4294967296 / 65536 % 256,
   n % 4294967296 / 256 % 256, n % 4294967296 % 256]

/-- `DataView.getUint32(off, false)`: the big-endian value of bytes `off .. off+3`.
(Only evaluated where the source guarantees `off + 4 ≤ b.length`.) -/
def readU32 (b : List Nat) (off : Nat) : Nat := beVal ((b.drop off).take 4)

/-- ASCII bytes of `"tEXt"`. -/
def tEXtB : List Nat := [116, 69, 88, 116]

/-- ASCII bytes of `"IHDR"`. -/
def IHDRB : List Nat := [73, 72, 68, 82]

/-- ASCII bytes of `"IEND"`. -/
def IENDB : List Nat := [73, 69, 78, 68]

/-- ASCII bytes of `"parameters"`. -/
def parametersB : List Nat := [112, 97, 114, 97, 109, 101, 116, 101, 114, 115]

/-- ASCII bytes of `"BananaProData"`. -/
def bananaB : List Nat := [66, 97, 110, 97, 110, 97, 80, 114, 111, 68, 97, 116, 97]

/-- The UTF-8 byte-order mark, which `TextDecoder` (default configuration) removes
from the start of its input. -/
def bomB : List Nat := [239, 187, 191]

/-- `TextDecoder().decode(k) === TextDecoder().decode(t)` for an ASCII byte list `t`:
the bytes agree exactly, or `k` carries one leading byte-order mark. -/
def kwEq (k t : List Nat) : Prop := k = t ∨ k = bomB ++ t

instance (k t : List Nat) : Decidable (kwEq k t) :=
  inferInstanceAs (Decidable (k = t ∨ k = bomB ++ t))

/-- The UTF-8 bytes of `TextDecoder().decode` applied to valid UTF-8 input:
one leading byte-order mark is removed. -/
def bomStrip (l : List Nat) : List Nat := if l.take 3 = bomB then l.drop 3 else l

-- --- Checksum primitive (crcTable / crc32 of src/index.tsx) ---

/-- One turn of the table-building inner loop:
`if (c & 1) c = 0xedb88320 ^ (c >>> 1); else c = c >>> 1;`. -/
def crcStep (c : Nat) : Nat := if c % 2 = 1 then 0xedb88320 ^^^ (c / 2) else c / 2

/-- `crcTable[n]`: eight applications of `crcStep` to `n`. -/
def crcTableEntry (n : Nat) : Nat := crcStep^[8] n

/-- `crc32(buf)`: fold the bytes through the table from register `0xffffffff`,
then XOR with `0xffffffff`. -/
def crc32 (buf : List Nat) : Nat :=
  (buf.foldl (fun crc b => crcTableEntry ((crc ^^^ b) &&& 255) ^^^ (crc >>> 8)) 0xffffffff)
    ^^^ 0xffffffff

-- --- The encoder: writePngMetadata ---

/-- The `while` loop of `writePngMetadata`, scanning for `IHDR` from `pos` and splicing
`chunk` in directly after it.  `.error ()` models the `RangeError` thrown by
`DataView.getUint32` when fewer than 4 bytes remain at `pos`, and by `Uint8Array.set`
when the insertion point (computed from the declared `IHDR` length) lies past the end
of the buffer. -/
def writeWalk : Nat → List Nat → List Nat → Nat → Except Unit (List Nat)
  | 0, b, _, _ => .ok b
  | fuel + 1, b, chunk, pos =>
    if pos < b.length then
      if pos + 4 ≤ b.length then
        let chunkLen := readU32 b pos
        let type := (b.drop (pos + 4)).take 4
        if type = IHDRB then
          let insertionPoint := pos + 8 + chunkLen + 4
          if insertionPoint ≤ b.length then
            .ok (b.take insertionPoint ++ chunk ++ b.drop insertionPoint)
          else .error ()
        else writeWalk fuel b chunk (pos + 8 + chunkLen + 4)
      else .error ()
    else .ok b

/-- `writePngMetadata(originalPng, key, value)` with `key`/`value` given as their UTF-8
bytes: build the `tEXt` chunk, check the 4-byte signature, and walk the chunk stream
inserting after `IHDR`. -/
def writePngMetadata (b key value : List Nat) : Except Unit (List Nat) :=
  let chunkData := key ++ 0 :: value
  let chunk :=
    u32be chunkData.length ++ tEXtB ++ chunkData ++ u32be (crc32 (tEXtB ++ chunkData))
  if b.getD 0 0 = 137 ∧ b.getD 1 0 = 80 ∧ b.getD 2 0 = 78 ∧ b.getD 3 0 = 71 then
    writeWalk b.length b chunk 8
  else .ok b

-- --- The decoder: extractPngMetadata ---

/-- The index of the first `0x00` byte of a list, as scanned by the `nullIndex` loop of
`extractPngMetadata` (`-1`, i.e. `none`, when there is no null byte). -/
def findNull : List Nat → Option Nat
  | [] => none
  | x :: xs => if x = 0 then some 0 else (findNull xs).map (· + 1)

/-- The `while` loop of `extractPngMetadata`: walk the chunks from `offset`, returning the
payload of the first `tEXt` chunk with a recognized keyword, `none` on a bounds
violation or at `IEND` or at the end of the buffer. -/
def extractWalk : Nat → List Nat → Nat → Option (List Nat)
  | 0, _, _ => none
  | fuel + 1, b, offset =>
    if offset < b.length then
      if offset + 8 > b.length then none
      else
        let length := readU32 b offset
        if offset + 8 + length + 4 > b.length then none
        else
          let type := (b.drop (offset + 4)).take 4
          let found : Option (List Nat) :=
            if type = tEXtB then
              let chunkData := (b.drop (offset + 8)).take length
              match findNull chunkData with
              | some i =>
                if kwEq (chunkData.take i) parametersB then
                  some (bomStrip (chunkData.drop (i + 1)))
                else if kwEq (chunkData.take i) bananaB then
                  some (bomStrip (chunkData.drop (i + 1)))
                else none
              | none => none
            else none
          match found with
          | some v => some v
          | none =>
            if type = IENDB then none
            else extractWalk fuel b (offset + 12 + length)
    else none

/-- `extractPngMetadata(buffer)`: check the signature word, then walk the chunks from
offset 8.  The initial `view.getUint32(0)` throws (`.error ()`) when the buffer holds
fewer than 4 bytes. -/
def extractPngMetadata (b : List Nat) : Except Unit (Option (List Nat)) :=
  if 4 ≤ b.length then
    if readU32 b 0 = 0x89504E47 then .ok (extractWalk b.length b 8) else .ok none
  else .error ()

-- --- Structured PNG streams (the data model of the spec, used to state the claims) ---

/-- A PNG chunk: 4-byte type tag, payload bytes, stored CRC word. -/
structure Chunk where
  type : List Nat
  data : List Nat
  crc : Nat
  deriving DecidableEq

/-- A structurally well-formed chunk: 4-byte type and a data length expressible as u32. -/
def WfChunk (c : Chunk) : Prop := c.type.length = 4 ∧ c.data.length < 4294967296

/-- Serialization of one chunk: big-endian length, type, data, big-endian CRC. -/
def serializeChunk (c : Chunk) : List Nat :=
  u32be c.data.length ++ c.type ++ c.data ++ u32be c.crc

/-- Serialization of a chunk sequence. -/
def chunksBytes : List Chunk → List Nat
  | [] => []
  | c :: cs => serializeChunk c ++ chunksBytes cs

/-- The 8-byte PNG signature. -/
def pngSig : List Nat := [137, 80, 78, 71, 13, 10, 26, 10]

/-- A PNG byte stream assembled from its signature and chunk sequence. -/
def serializePng (cs : List Chunk) : List Nat := pngSig ++ chunksBytes cs

/-- The `tEXt` chunk that `writePngMetadata` builds for `key`/`value`
(CRC over type plus data, as the source computes it). -/
def textChunk (key value : List Nat) : Chunk :=
  ⟨tEXtB, key ++ 0 :: value, crc32 (tEXtB ++ (key ++ 0 :: value))⟩

/-- Chunk-level recognition semantics of the decoder: the payload a single chunk yields. -/
def matchChunk (c : Chunk) : Option (List Nat) :=
  if c.type = tEXtB then
    match findNull c.data with
    | some i =>
      if kwEq (c.data.take i) parametersB then some (bomStrip (c.data.drop (i + 1)))
      else if kwEq (c.data.take i) bananaB then some (bomStrip (c.data.drop (i + 1)))
      else none
    | none => none
  else none

/-- Chunk-level reference semantics of the decoder walk: first recognized payload,
stopping at `IEND`. -/
def scanChunks : List Chunk → Option (List Nat)
  | [] => none
  | c :: cs =>
    match matchChunk c with
    | some v => some v
    | none => if c.type = IENDB then none else scanChunks cs

/-- A chunk the decoder passes over without effect: well-formed, yields no payload,
and is not the `IEND` terminator. -/
def SkippedChunk (c : Chunk) : Prop :=
  WfChunk c ∧ matchChunk c = none ∧ c.type ≠ IENDB

instance (c : Chunk) : Decidable (WfChunk c) :=
  inferInstanceAs (Decidable (c.type.length = 4 ∧ c.data.length < 4294967296))

instance (c : Chunk) : Decidable (SkippedChunk c) :=
  inferInstanceAs (Decidable (WfChunk c ∧ matchChunk c = none ∧ c.type ≠ IENDB))

/-- A `tEXt` chunk the decoder does not recognize: no keyword equal (after `TextDecoder`
normalization) to `"parameters"` or `"BananaProData"`. Vacuously true of non-`tEXt` chunks. -/
def Unrecognized (c : Chunk) : Prop :=
  c.type = tEXtB →
    match findNull c.data with
    | some i => ¬kwEq (c.data.take i) parametersB ∧ ¬kwEq (c.data.take i) bananaB
    | none => True

instance (c : Chunk) : Decidable (Unrecognized c) := by
  unfold Unrecognized
  rcases h : findNull c.data with _ | i
  · exact inferInstanceAs (Decidable (c.type = tEXtB → True))
  · exact inferInstanceAs (Decidable (c.type = tEXtB →
      ¬kwEq (c.data.take i) parametersB ∧ ¬kwEq (c.data.take i) bananaB))

instance {e a : Type} [DecidableEq e] [DecidableEq a] : DecidableEq (Except e a) := fun x y =>
  match x, y with
  | .ok u, .ok v =>
    if h : u = v then .isTrue (by rw [h]) else .isFalse (fun hc => h (Except.ok.inj hc))
  | .error u, .error v =>
    if h : u = v then .isTrue (by rw [h]) else .isFalse (fun hc => h (Except.error.inj hc))
  | .ok _, .error _ => .isFalse (fun hc => Except.noConfusion hc)
  | .error _, .ok _ => .isFalse (fun hc => Except.noConfusion hc)

-- --- Concrete inputs for the minimal synthetic PNG of the spec's scenario ---

/-- 13 dummy data bytes for a minimal `IHDR` chunk. -/
def ihdrData : List Nat := List.replicate 13 0

/-- A minimal `IHDR` chunk with 13 bytes of dummy data and correct CRC. -/
def ihdrChunk : Chunk := ⟨IHDRB, ihdrData, crc32 (IHDRB ++ ihdrData)⟩

/-- An `IEND` chunk with empty data and correct CRC. -/
def iendChunk : Chunk := ⟨IENDB, [], crc32 IENDB⟩

/-- The minimal synthetic PNG `P0`: signature, `IHDR` (13 dummy bytes), `IEND`. -/
def P0 : List Nat := serializePng [ihdrChunk, iendChunk]

/-- UTF-8 bytes of the JSON payload of the spec's concrete scenario
(an object with fields mega = "a castle" and lighting = "dawn"). -/
def jsonB : List Nat :=
  [123, 34, 109, 101, 103, 97, 34, 58, 34, 97, 32, 99, 97, 115, 116, 108, 101, 34, 44,
   34, 108, 105, 103, 104, 116, 105, 110, 103, 34, 58, 34, 100, 97, 119, 110, 34, 125]

/-- `P0` with the scenario's `tEXt` chunk inserted after `IHDR`. -/
def P0banana : List Nat := serializePng [ihdrChunk, textChunk bananaB jsonB, iendChunk]

-- --- Library lemmas on bytes and serialized chunks ---

theorem take_append_len {α : Type} (l₁ l₂ : List α) (n : Nat) (h : l₁.length = n) :
    (l₁ ++ l₂).take n = l₁ := by
  subst h; exact List.take_left l₁ l₂

theorem drop_append_len {α : Type} (l₁ l₂ : List α) (n : Nat) (h : l₁.length = n) :
    (l₁ ++ l₂).drop n = l₂ := by
  subst h; exact List.drop_left l₁ l₂

theorem u32be_length (n : Nat) : (u32be n).length = 4 := rfl

theorem readU32_append (pre l : List Nat) (off : Nat) (h : pre.length = off) :
    readU32 (pre ++ l) off = readU32 l 0 := by
  unfold readU32
  rw [drop_append_len pre l off h, List.drop_zero]

theorem readU32_u32be (n : Nat) (rest : List Nat) :
    readU32 (u32be n ++ rest) 0 = n % 4294967296 := by
  unfold readU32
  rw [List.drop_zero, take_append_len _ _ 4 (u32be_length n)]
  unfold u32be beVal
  simp only [List.foldl]
  omega

theorem serializeChunk_length (c : Chunk) (h : c.type.length = 4) :
    (serializeChunk c).length = 12 + c.data.length := by
  simp only [serializeChunk, List.length_append, u32be_length, h]
  omega

theorem chunk_readLen (pre rest : List Nat) (c : Chunk) (h : c.data.length < 4294967296) :
    readU32 (pre ++ serializeChunk c ++ rest) pre.length = c.data.length := by
  rw [List.append_assoc, readU32_append pre (serializeChunk c ++ rest) pre.length rfl]
  have hassoc : serializeChunk c ++ rest =
      u32be c.data.length ++ (c.type ++ c.data ++ u32be c.crc ++ rest) := by
    simp [serializeChunk]
  rw [hassoc, readU32_u32be]
  omega

theorem chunk_readType (pre rest : List Nat) (c : Chunk) (h : c.type.length = 4) :
    ((pre ++ serializeChunk c ++ rest).drop (pre.length + 4)).take 4 = c.type := by
  have hassoc : pre ++ serializeChunk c ++ rest =
      (pre ++ u32be c.data.length) ++ (c.type ++ (c.data ++ u32be c.crc ++ rest)) := by
    simp [serializeChunk]
  rw [hassoc, drop_append_len _ _ (pre.length + 4) (by simp [u32be]),
    take_append_len _ _ 4 h]

theorem chunk_readData (pre rest : List Nat) (c : Chunk) (h : c.type.length = 4) :
    ((pre ++ serializeChunk c ++ rest).drop (pre.length + 8)).take c.data.length = c.data := by
  have hassoc : pre ++ serializeChunk c ++ rest =
      (pre ++ u32be c.data.length ++ c.type) ++ (c.data ++ (u32be c.crc ++ rest)) := by
    simp [serializeChunk]
  rw [hassoc, drop_append_len _ _ (pre.length + 8) (by simp [u32be, h]),
    take_append_len _ _ c.data.length rfl]

theorem chunksBytes_append (cs ds : List Chunk) :
    chunksBytes (cs ++ ds) = chunksBytes cs ++ chunksBytes ds := by
  induction cs with
  | nil => simp [chunksBytes]
  | cons c cs ih => simp [chunksBytes, ih]

theorem chunksBytes_length_ge (cs : List Chunk) (h : ∀ c ∈ cs, WfChunk c) :
    12 * cs.length ≤ (chunksBytes cs).length := by
  induction cs with
  | nil => simp [chunksBytes]
  | cons c cs ih =>
    have hc := h c (by simp)
    have hlen := serializeChunk_length c hc.1
    have := ih (fun x hx => h x (by simp [hx]))
    simp only [chunksBytes, List.length_append, List.length_cons, hlen]
    omega

-- --- Behaviour of the decoder walk on serialized chunks ---

theorem extractWalk_past (fuel : Nat) (b : List Nat) (off : Nat) (h : b.length ≤ off) :
    extractWalk fuel b off = none := by
  cases fuel with
  | zero => rfl
  | succ f => simp [extractWalk, show ¬(off < b.length) by omega]

/-- One iteration of the decoder loop over a serialized chunk behaves as the chunk-level
recognition `matchChunk`, continuing past the chunk when it yields nothing. -/
theorem extractWalk_step (fuel : Nat) (pre rest : List Nat) (c : Chunk) (hwf : WfChunk c) :
    extractWalk (fuel + 1) (pre ++ serializeChunk c ++ rest) pre.length =
      match matchChunk c with
      | some v => some v
      | none =>
        if c.type = IENDB then none
        else extractWalk fuel (pre ++ serializeChunk c ++ rest)
          (pre.length + 12 + c.data.length) := by
  have hlen : (pre ++ serializeChunk c ++ rest).length
      = pre.length + (12 + c.data.length) + rest.length := by
    simp only [List.length_append, serializeChunk_length c hwf.1]
    try omega
  have hru : readU32 (pre ++ serializeChunk c ++ rest) pre.length = c.data.length :=
    chunk_readLen pre rest c hwf.2
  have hty : ((pre ++ serializeChunk c ++ rest).drop (pre.length + 4)).take 4 = c.type :=
    chunk_readType pre rest c hwf.1
  have hdata : ((pre ++ serializeChunk c ++ rest).drop (pre.length + 8)).take c.data.length
      = c.data := chunk_readData pre rest c hwf.1
  have h1 : pre.length < (pre ++ serializeChunk c ++ rest).length := by omega
  have h2 : ¬(pre.length + 8 > (pre ++ serializeChunk c ++ rest).length) := by omega
  have h3 : ¬(pre.length + 8 + c.data.length + 4 > (pre ++ serializeChunk c ++ rest).length) :=
    by omega
  simp only [extractWalk, hru, hty, hdata, h1, h2, h3, if_true, if_false, matchChunk]

theorem extractWalk_step_skip (fuel : Nat) (pre rest : List Nat) (c : Chunk)
    (h : SkippedChunk c) :
    extractWalk (fuel + 1) (pre ++ serializeChunk c ++ rest) pre.length =
      extractWalk fuel (pre ++ serializeChunk c ++ rest) (pre.length + 12 + c.data.length) := by
  rw [extractWalk_step fuel pre rest c h.1, h.2.1]
  simp [h.2.2]

theorem extractWalk_step_found (fuel : Nat) (pre rest : List Nat) (c : Chunk) (v : List Nat)
    (hwf : WfChunk c) (hm : matchChunk c = some v) :
    extractWalk (fuel + 1) (pre ++ serializeChunk c ++ rest) pre.length = some v := by
  rw [extractWalk_step fuel pre rest c hwf, hm]

theorem extractWalk_step_iend (fuel : Nat) (pre rest : List Nat) (c : Chunk)
    (hwf : WfChunk c) (hm : matchChunk c = none) (hie : c.type = IENDB) :
    extractWalk (fuel + 1) (pre ++ serializeChunk c ++ rest) pre.length = none := by
  rw [extractWalk_step fuel pre rest c hwf, hm]
  simp [hie]

/-- The decoder walk over a fully serialized chunk sequence computes the chunk-level
scan `scanChunks`, provided the fuel covers the buffer. -/
theorem extractWalk_scan (cs : List Chunk) : ∀ (pre : List Nat) (fuel : Nat),
    (∀ c ∈ cs, WfChunk c) → (pre ++ chunksBytes cs).length ≤ fuel + pre.length →
    extractWalk fuel (pre ++ chunksBytes cs) pre.length = scanChunks cs := by
  induction cs with
  | nil =>
    intro pre fuel _ _
    have h0 : pre ++ chunksBytes [] = pre := by simp [chunksBytes]
    rw [h0, extractWalk_past fuel pre pre.length (Nat.le_refl _)]
    rfl
  | cons c cs ihind =>
    intro pre fuel hwf hfuel
    have hwfc := hwf c (by simp)
    have hassoc : pre ++ chunksBytes (c :: cs) = pre ++ serializeChunk c ++ chunksBytes cs := by
      simp [chunksBytes, List.append_assoc]
    have hsc := serializeChunk_length c hwfc.1
    have hlen : (pre ++ chunksBytes (c :: cs)).length
        = pre.length + (12 + c.data.length) + (chunksBytes cs).length := by
      simp [chunksBytes, List.length_append, hsc]
      omega
    obtain ⟨f, rfl⟩ : ∃ f, fuel = f + 1 := by
      cases fuel with
      | zero => exfalso; omega
      | succ f => exact ⟨f, rfl⟩
    rw [hassoc, extractWalk_step f pre (chunksBytes cs) c hwfc]
    cases hm : matchChunk c with
    | some v => simp [scanChunks, hm]
    | none =>
      simp only [scanChunks, hm]
      by_cases hIE : c.type = IENDB
      · simp [hIE]
      · simp only [if_neg hIE]
        have hoff : pre.length + 12 + c.data.length = (pre ++ serializeChunk c).length := by
          simp [List.length_append, hsc]
          omega
        rw [hoff]
        have hb : pre ++ serializeChunk c ++ chunksBytes cs
            = (pre ++ serializeChunk c) ++ chunksBytes cs := rfl
        rw [hb]
        exact ihind (pre ++ serializeChunk c) f (fun x hx => hwf x (by simp [hx]))
          (by
            simp only [chunksBytes, List.length_append, hsc] at hfuel ⊢
            omega)

/-- The decoder walk passes over a sequence of skipped chunks, consuming one unit of fuel
per chunk and landing at the offset just after them. -/
theorem extractWalk_skip (cs : List Chunk) : ∀ (pre rest : List Nat) (fuel : Nat),
    (∀ c ∈ cs, SkippedChunk c) →
    (pre ++ chunksBytes cs ++ rest).length ≤ fuel + pre.length →
    extractWalk fuel (pre ++ chunksBytes cs ++ rest) pre.length =
      extractWalk (fuel - cs.length) (pre ++ chunksBytes cs ++ rest)
        (pre ++ chunksBytes cs).length := by
  induction cs with
  | nil =>
    intro pre rest fuel _ _
    simp [chunksBytes]
  | cons c cs ihind =>
    intro pre rest fuel hsk hfuel
    obtain ⟨hwfc, hmc, hnie⟩ := hsk c (by simp)
    have hsc := serializeChunk_length c hwfc.1
    have hassoc : pre ++ chunksBytes (c :: cs) ++ rest
        = pre ++ serializeChunk c ++ (chunksBytes cs ++ rest) := by
      simp [chunksBytes, List.append_assoc]
    have hblen : (pre ++ chunksBytes (c :: cs) ++ rest).length
        = pre.length + (12 + c.data.length) + (chunksBytes cs).length + rest.length := by
      simp only [chunksBytes, List.length_append, hsc]
      omega
    obtain ⟨f, rfl⟩ : ∃ f, fuel = f + 1 := by
      cases fuel with
      | zero => exfalso; omega
      | succ f => exact ⟨f, rfl⟩
    rw [hassoc, extractWalk_step_skip f pre (chunksBytes cs ++ rest) c ⟨hwfc, hmc, hnie⟩]
    have hoff : pre.length + 12 + c.data.length = (pre ++ serializeChunk c).length := by
      simp only [List.length_append, hsc]
      omega
    rw [hoff]
    have hb : pre ++ serializeChunk c ++ (chunksBytes cs ++ rest)
        = (pre ++ serializeChunk c) ++ chunksBytes cs ++ rest := by
      simp [List.append_assoc]
    rw [hb]
    rw [ihind (pre ++ serializeChunk c) rest f (fun x hx => hsk x (by simp [hx]))
      (by
        simp only [chunksBytes, List.length_append, hsc] at hfuel ⊢
        omega)]
    have hfsub : f - cs.length = (f + 1) - (c :: cs).length := by
      simp [List.length_cons]
    rw [hfsub]
    have hoffs : ((pre ++ serializeChunk c) ++ chunksBytes cs).length
        = (pre ++ chunksBytes (c :: cs)).length := by
      simp only [chunksBytes, List.length_append]
      omega
    rw [hoffs]

/-- Reaching a truncated tail — a nonempty remainder that cannot hold a chunk header,
or whose declared length overruns the buffer — makes the decoder walk return `none`. -/
theorem extractWalk_truncated (fuel : Nat) (pre trunc : List Nat) (h1 : trunc ≠ [])
    (h2 : trunc.length < 8 ∨ trunc.length < 12 + readU32 trunc 0) :
    extractWalk fuel (pre ++ trunc) pre.length = none := by
  cases fuel with
  | zero => rfl
  | succ f =>
    have hblen : (pre ++ trunc).length = pre.length + trunc.length := by simp
    have h0 : 0 < trunc.length := List.length_pos.mpr h1
    have hru : readU32 (pre ++ trunc) pre.length = readU32 trunc 0 :=
      readU32_append pre trunc pre.length rfl
    simp only [extractWalk, hru]
    split_ifs <;> first | rfl | (exfalso; omega)

-- --- Chunk-level scan facts ---

theorem matchChunk_of_type_ne (c : Chunk) (h : c.type ≠ tEXtB) : matchChunk c = none := by
  simp [matchChunk, h]

theorem unrecognized_matchChunk (c : Chunk) (h : Unrecognized c) : matchChunk c = none := by
  unfold matchChunk
  by_cases ht : c.type = tEXtB
  · unfold Unrecognized at h
    specialize h ht
    rw [if_pos ht]
    cases hf : findNull c.data with
    | none => rfl
    | some i =>
      rw [hf] at h
      simp [h.1, h.2]
  · rw [if_neg ht]

theorem scanChunks_none (cs : List Chunk) (h : ∀ c ∈ cs, matchChunk c = none) :
    scanChunks cs = none := by
  induction cs with
  | nil => rfl
  | cons c cs ihind =>
    have hc := h c (by simp)
    simp only [scanChunks, hc]
    by_cases hie : c.type = IENDB
    · simp [hie]
    · simp only [if_neg hie]
      exact ihind (fun x hx => h x (by simp [hx]))

theorem scanChunks_append_skip (cs ds : List Chunk)
    (h : ∀ c ∈ cs, matchChunk c = none ∧ c.type ≠ IENDB) :
    scanChunks (cs ++ ds) = scanChunks ds := by
  induction cs with
  | nil => rfl
  | cons c cs ihind =>
    obtain ⟨hmc, hie⟩ := h c (by simp)
    simp only [List.cons_append, scanChunks, hmc, if_neg hie]
    exact ihind (fun x hx => h x (by simp [hx]))

theorem findNull_of_no_zero (l : List Nat) (h : ∀ x ∈ l, x ≠ 0) : findNull l = none := by
  induction l with
  | nil => rfl
  | cons a l ihind =>
    have ha : a ≠ 0 := h a (by simp)
    simp [findNull, ha, ihind (fun x hx => h x (by simp [hx]))]

theorem findNull_append_zero (k v : List Nat) (h : ∀ x ∈ k, x ≠ 0) :
    findNull (k ++ 0 :: v) = some k.length := by
  induction k with
  | nil => simp [findNull]
  | cons a k ihind =>
    have ha : a ≠ 0 := h a (by simp)
    simp [findNull, ha, ihind (fun x hx => h x (by simp [hx]))]

/-- The chunk built by the encoder is recognized by the chunk-level scan and yields the
stored text (up to the decoder's removal of a leading byte-order mark). -/
theorem matchChunk_textChunk (k v : List Nat) (hk : k = parametersB ∨ k = bananaB) :
    matchChunk (textChunk k v) = some (bomStrip v) := by
  have hnz : ∀ x ∈ k, x ≠ 0 := by
    rcases hk with rfl | rfl <;> decide
  have hdrop : (k ++ 0 :: v).drop (k.length + 1) = v := by
    have hsplit : k ++ 0 :: v = (k ++ [0]) ++ v := by simp
    rw [hsplit, drop_append_len _ _ (k.length + 1) (by simp)]
  have htake : (k ++ 0 :: v).take k.length = k := take_append_len k (0 :: v) k.length rfl
  rcases hk with rfl | rfl
  · have hkp : kwEq parametersB parametersB := Or.inl rfl
    simp [matchChunk, textChunk, findNull_append_zero _ v hnz, htake, hdrop, hkp]
  · have hkb : kwEq bananaB bananaB := Or.inl rfl
    have hnp : ¬kwEq bananaB parametersB := by decide
    simp [matchChunk, textChunk, findNull_append_zero _ v hnz, htake, hdrop, hkb, hnp]

-- --- Behaviour of the encoder walk on serialized chunks ---

theorem writeWalk_past (fuel : Nat) (b chunk : List Nat) (pos : Nat) (h : b.length ≤ pos) :
    writeWalk fuel b chunk pos = .ok b := by
  cases fuel with
  | zero => rfl
  | succ f => simp [writeWalk, show ¬(pos < b.length) by omega]

/-- The encoder walk advances over one serialized non-`IHDR` chunk. -/
theorem writeWalk_step (fuel : Nat) (pre rest chunk : List Nat) (c : Chunk)
    (hwf : WfChunk c) (hne : c.type ≠ IHDRB) :
    writeWalk (fuel + 1) (pre ++ serializeChunk c ++ rest) chunk pre.length =
      writeWalk fuel (pre ++ serializeChunk c ++ rest) chunk
        (pre.length + 8 + c.data.length + 4) := by
  have hlen : (pre ++ serializeChunk c ++ rest).length
      = pre.length + (12 + c.data.length) + rest.length := by
    simp only [List.length_append, serializeChunk_length c hwf.1]
    try omega
  have hru : readU32 (pre ++ serializeChunk c ++ rest) pre.length = c.data.length :=
    chunk_readLen pre rest c hwf.2
  have hty : ((pre ++ serializeChunk c ++ rest).drop (pre.length + 4)).take 4 = c.type :=
    chunk_readType pre rest c hwf.1
  have h1 : pre.length < (pre ++ serializeChunk c ++ rest).length := by omega
  have h2 : pre.length + 4 ≤ (pre ++ serializeChunk c ++ rest).length := by omega
  simp only [writeWalk, hru, hty, h1, h2, hne, if_true, if_false, ite_false]

/-- The encoder walk, on reaching a serialized `IHDR` chunk, splices the new chunk in
directly after its trailing CRC. -/
theorem writeWalk_found (fuel : Nat) (pre rest chunk : List Nat) (c : Chunk)
    (hwf : WfChunk c) (he : c.type = IHDRB) :
    writeWalk (fuel + 1) (pre ++ serializeChunk c ++ rest) chunk pre.length =
      .ok ((pre ++ serializeChunk c) ++ chunk ++ rest) := by
  have hsc := serializeChunk_length c hwf.1
  have hlen : (pre ++ serializeChunk c ++ rest).length
      = pre.length + (12 + c.data.length) + rest.length := by
    simp only [List.length_append, hsc]
    try omega
  have hru : readU32 (pre ++ serializeChunk c ++ rest) pre.length = c.data.length :=
    chunk_readLen pre rest c hwf.2
  have hty : ((pre ++ serializeChunk c ++ rest).drop (pre.length + 4)).take 4 = c.type :=
    chunk_readType pre rest c hwf.1
  have h1 : pre.length < (pre ++ serializeChunk c ++ rest).length := by omega
  have h2 : pre.length + 4 ≤ (pre ++ serializeChunk c ++ rest).length := by omega
  have hip : pre.length + 8 + c.data.length + 4 ≤ (pre ++ serializeChunk c ++ rest).length := by
    omega
  have hpresc : (pre ++ serializeChunk c).length = pre.length + 8 + c.data.length + 4 := by
    simp only [List.length_append, hsc]
    omega
  have htake : (pre ++ serializeChunk c ++ rest).take (pre.length + 8 + c.data.length + 4)
      = pre ++ serializeChunk c :=
    take_append_len (pre ++ serializeChunk c) rest _ hpresc
  have hdrop : (pre ++ serializeChunk c ++ rest).drop (pre.length + 8 + c.data.length + 4)
      = rest :=
    drop_append_len (pre ++ serializeChunk c) rest _ hpresc
  simp only [writeWalk, hru, hty, he, h1, h2, hip, if_true, ite_true, htake, hdrop]

/-- The encoder walk skips any run of well-formed non-`IHDR` chunks and splices the new
chunk in right after the next `IHDR` chunk, whatever bytes follow it. -/
theorem writeWalk_insert (cs : List Chunk) : ∀ (pre rest chunk : List Nat) (fuel : Nat)
    (c : Chunk), (∀ x ∈ cs, WfChunk x ∧ x.type ≠ IHDRB) → WfChunk c → c.type = IHDRB →
    (pre ++ chunksBytes cs ++ serializeChunk c ++ rest).length ≤ fuel + pre.length →
    writeWalk fuel (pre ++ chunksBytes cs ++ serializeChunk c ++ rest) chunk pre.length =
      .ok (pre ++ chunksBytes cs ++ serializeChunk c ++ chunk ++ rest) := by
  induction cs with
  | nil =>
    intro pre rest chunk fuel c _ hwfc he hfuel
    have hsc := serializeChunk_length c hwfc.1
    have hb : pre ++ chunksBytes [] ++ serializeChunk c ++ rest
        = pre ++ serializeChunk c ++ rest := by simp [chunksBytes]
    rw [hb] at hfuel ⊢
    obtain ⟨f, rfl⟩ : ∃ f, fuel = f + 1 := by
      cases fuel with
      | zero =>
        exfalso
        have : (pre ++ serializeChunk c ++ rest).length
            = pre.length + (12 + c.data.length) + rest.length := by
          simp only [List.length_append, hsc]
          try omega
        omega
      | succ f => exact ⟨f, rfl⟩
    rw [writeWalk_found f pre rest chunk c hwfc he]
    simp [chunksBytes, List.append_assoc]
  | cons d cs ihind =>
    intro pre rest chunk fuel c hsk hwfc he hfuel
    obtain ⟨hwfd, hned⟩ := hsk d (by simp)
    have hscd := serializeChunk_length d hwfd.1
    have hassoc : pre ++ chunksBytes (d :: cs) ++ serializeChunk c ++ rest
        = pre ++ serializeChunk d ++ (chunksBytes cs ++ serializeChunk c ++ rest) := by
      simp [chunksBytes, List.append_assoc]
    have hblen : (pre ++ chunksBytes (d :: cs) ++ serializeChunk c ++ rest).length
        = pre.length + (12 + d.data.length)
          + ((chunksBytes cs).length + (serializeChunk c).length + rest.length) := by
      simp only [chunksBytes, List.length_append, hscd]
      omega
    obtain ⟨f, rfl⟩ : ∃ f, fuel = f + 1 := by
      cases fuel with
      | zero => exfalso; omega
      | succ f => exact ⟨f, rfl⟩
    rw [hassoc, writeWalk_step f pre (chunksBytes cs ++ serializeChunk c ++ rest) chunk d
      hwfd hned]
    have hoff : pre.length + 8 + d.data.length + 4 = (pre ++ serializeChunk d).length := by
      simp only [List.length_append, hscd]
      omega
    rw [hoff]
    have hb2 : pre ++ serializeChunk d ++ (chunksBytes cs ++ serializeChunk c ++ rest)
        = (pre ++ serializeChunk d) ++ chunksBytes cs ++ serializeChunk c ++ rest := by
      simp [List.append_assoc]
    rw [hb2]
    rw [ihind (pre ++ serializeChunk d) rest chunk f c
      (fun x hx => hsk x (by simp [hx])) hwfc he
      (by
        simp only [chunksBytes, List.length_append, hscd] at hfuel ⊢
        omega)]
    simp [chunksBytes, List.append_assoc]

/-- The encoder walk over a serialized chunk sequence containing no `IHDR` chunk reaches
the end of the buffer and leaves it unchanged. -/
theorem writeWalk_noIHDR (cs : List Chunk) : ∀ (pre chunk : List Nat) (fuel : Nat),
    (∀ x ∈ cs, WfChunk x ∧ x.type ≠ IHDRB) →
    (pre ++ chunksBytes cs).length ≤ fuel + pre.length →
    writeWalk fuel (pre ++ chunksBytes cs) chunk pre.length = .ok (pre ++ chunksBytes cs) := by
  induction cs with
  | nil =>
    intro pre chunk fuel _ _
    have hb : pre ++ chunksBytes [] = pre := by simp [chunksBytes]
    rw [hb]
    exact writeWalk_past fuel pre chunk pre.length (Nat.le_refl _)
  | cons d cs ihind =>
    intro pre chunk fuel hsk hfuel
    obtain ⟨hwfd, hned⟩ := hsk d (by simp)
    have hscd := serializeChunk_length d hwfd.1
    have hassoc : pre ++ chunksBytes (d :: cs)
        = pre ++ serializeChunk d ++ chunksBytes cs := by
      simp [chunksBytes, List.append_assoc]
    have hblen : (pre ++ chunksBytes (d :: cs)).length
        = pre.length + (12 + d.data.length) + (chunksBytes cs).length := by
      simp only [chunksBytes, List.length_append, hscd]
      omega
    obtain ⟨f, rfl⟩ : ∃ f, fuel = f + 1 := by
      cases fuel with
      | zero => exfalso; omega
      | succ f => exact ⟨f, rfl⟩
    rw [hassoc, writeWalk_step f pre (chunksBytes cs) chunk d hwfd hned]
    have hoff : pre.length + 8 + d.data.length + 4 = (pre ++ serializeChunk d).length := by
      simp only [List.length_append, hscd]
      omega
    rw [hoff]
    exact ihind (pre ++ serializeChunk d) chunk f (fun x hx => hsk x (by simp [hx]))
      (by
        simp only [chunksBytes, List.length_append, hscd] at hfuel ⊢
        omega)

/-- On any serialized well-formed chunk sequence the encoder walk terminates without
throwing: it either splices after an `IHDR` chunk or returns the buffer unchanged. -/
theorem writeWalk_isOk (cs : List Chunk) : ∀ (pre chunk : List Nat) (fuel : Nat),
    (∀ x ∈ cs, WfChunk x) → (pre ++ chunksBytes cs).length ≤ fuel + pre.length →
    (writeWalk fuel (pre ++ chunksBytes cs) chunk pre.length).isOk = true := by
  induction cs with
  | nil =>
    intro pre chunk fuel _ _
    have hb : pre ++ chunksBytes [] = pre := by simp [chunksBytes]
    rw [hb, writeWalk_past fuel pre chunk pre.length (Nat.le_refl _)]
    rfl
  | cons d cs ihind =>
    intro pre chunk fuel hwf hfuel
    have hwfd := hwf d (by simp)
    have hscd := serializeChunk_length d hwfd.1
    have hassoc : pre ++ chunksBytes (d :: cs)
        = pre ++ serializeChunk d ++ chunksBytes cs := by
      simp [chunksBytes, List.append_assoc]
    have hblen : (pre ++ chunksBytes (d :: cs)).length
        = pre.length + (12 + d.data.length) + (chunksBytes cs).length := by
      simp only [chunksBytes, List.length_append, hscd]
      omega
    obtain ⟨f, rfl⟩ : ∃ f, fuel = f + 1 := by
      cases fuel with
      | zero => exfalso; omega
      | succ f => exact ⟨f, rfl⟩
    by_cases he : d.type = IHDRB
    · rw [hassoc, writeWalk_found f pre (chunksBytes cs) chunk d hwfd he]
      rfl
    · rw [hassoc, writeWalk_step f pre (chunksBytes cs) chunk d hwfd he]
      have hoff : pre.length + 8 + d.data.length + 4 = (pre ++ serializeChunk d).length := by
        simp only [List.length_append, hscd]
        omega
      rw [hoff]
      exact ihind (pre ++ serializeChunk d) chunk f (fun x hx => hwf x (by simp [hx]))
        (by
          simp only [chunksBytes, List.length_append, hscd] at hfuel ⊢
          omega)

-- --- Top-level bridges ---

theorem serializePng_cons (cs : List Chunk) :
    serializePng cs = 137 :: 80 :: 78 :: 71 :: 13 :: 10 :: 26 :: 10 :: chunksBytes cs := by
  simp [serializePng, pngSig]

theorem serializePng_length (cs : List Chunk) :
    (serializePng cs).length = 8 + (chunksBytes cs).length := by
  rw [serializePng_cons]
  simp
  omega

/-- On a serialized PNG, the encoder passes the signature check and runs the walk from
offset 8 with the serialized `tEXt` chunk in hand. -/
theorem writePng_serialized (cs : List Chunk) (k v : List Nat) :
    writePngMetadata (serializePng cs) k v =
      writeWalk (serializePng cs).length (serializePng cs)
        (serializeChunk (textChunk k v)) 8 := by
  unfold writePngMetadata
  rw [if_pos (by rw [serializePng_cons]; simp [List.getD])]
  have hchunk : u32be (k ++ 0 :: v).length ++ tEXtB ++ (k ++ 0 :: v)
      ++ u32be (crc32 (tEXtB ++ (k ++ 0 :: v))) = serializeChunk (textChunk k v) := by
    simp [serializeChunk, textChunk]
  rw [hchunk]

/-- On a serialized well-formed PNG, the decoder passes the signature check and computes
the chunk-level scan. -/
theorem extract_serialized (cs : List Chunk) (h : ∀ c ∈ cs, WfChunk c) :
    extractPngMetadata (serializePng cs) = .ok (scanChunks cs) := by
  unfold extractPngMetadata
  have hlen4 : 4 ≤ (serializePng cs).length := by
    rw [serializePng_length]
    omega
  have hsig : readU32 (serializePng cs) 0 = 0x89504E47 := by
    have htake : ((serializePng cs).drop 0).take 4 = [137, 80, 78, 71] := by
      rw [List.drop_zero]
      have hsplit : serializePng cs
          = [137, 80, 78, 71] ++ (13 :: 10 :: 26 :: 10 :: chunksBytes cs) := by
        rw [serializePng_cons]
        rfl
      rw [hsplit, take_append_len [137, 80, 78, 71] (13 :: 10 :: 26 :: 10 :: chunksBytes cs)
        4 (by rfl)]
    unfold readU32
    rw [htake]
    rfl
  rw [if_pos hlen4, if_pos hsig]
  have hwalk := extractWalk_scan cs pngSig (serializePng cs).length h
    (by
      rw [serializePng_length]
      have : pngSig ++ chunksBytes cs = serializePng cs := rfl
      rw [this, serializePng_length]
      simp [pngSig])
  have hb : pngSig ++ chunksBytes cs = serializePng cs := rfl
  rw [hb] at hwalk
  exact congrArg Except.ok hwalk

/-- Inserting into a serialized PNG whose chunk sequence is a run of well-formed
non-`IHDR` chunks followed by an `IHDR` chunk: the encoder returns the same PNG with the
new `tEXt` chunk spliced in right after `IHDR`; the bytes after `IHDR` are untouched. -/
theorem writePng_insert (cs₁ cs₂ : List Chunk) (c : Chunk) (k v : List Nat)
    (h1 : ∀ x ∈ cs₁, WfChunk x ∧ x.type ≠ IHDRB) (hwfc : WfChunk c) (he : c.type = IHDRB) :
    writePngMetadata (serializePng (cs₁ ++ c :: cs₂)) k v =
      .ok (serializePng (cs₁ ++ c :: textChunk k v :: cs₂)) := by
  rw [writePng_serialized]
  have hb : serializePng (cs₁ ++ c :: cs₂)
      = pngSig ++ chunksBytes cs₁ ++ serializeChunk c ++ chunksBytes cs₂ := by
    simp [serializePng, chunksBytes_append, chunksBytes, List.append_assoc]
  have hlen8 : pngSig.length = 8 := rfl
  rw [hb]
  have hwalk := writeWalk_insert cs₁ pngSig (chunksBytes cs₂)
    (serializeChunk (textChunk k v))
    (pngSig ++ chunksBytes cs₁ ++ serializeChunk c ++ chunksBytes cs₂).length c
    h1 hwfc he (by rw [hlen8]; omega)
  have hassoc : pngSig ++ chunksBytes cs₁ ++ serializeChunk c ++ chunksBytes cs₂
      = pngSig ++ (chunksBytes cs₁ ++ serializeChunk c ++ chunksBytes cs₂) := by
    simp [List.append_assoc]
  rw [hlen8] at hwalk
  rw [hwalk]
  have hout : pngSig ++ chunksBytes cs₁ ++ serializeChunk c
      ++ serializeChunk (textChunk k v) ++ chunksBytes cs₂
      = serializePng (cs₁ ++ c :: textChunk k v :: cs₂) := by
    simp [serializePng, chunksBytes_append, chunksBytes, List.append_assoc]
  rw [hout]

/-- On a serialized well-formed PNG with no `IHDR` chunk, the encoder is a no-op. -/
theorem writePng_noIHDR (cs : List Chunk) (k v : List Nat)
    (h : ∀ x ∈ cs, WfChunk x ∧ x.type ≠ IHDRB) :
    writePngMetadata (serializePng cs) k v = .ok (serializePng cs) := by
  rw [writePng_serialized]
  have hb : serializePng cs = pngSig ++ chunksBytes cs := rfl
  have hlen8 : pngSig.length = 8 := rfl
  rw [hb]
  have hwalk := writeWalk_noIHDR cs pngSig (serializeChunk (textChunk k v))
    (pngSig ++ chunksBytes cs).length h (by rw [hlen8]; omega)
  rw [hlen8] at hwalk
  exact hwalk

-- --- Checksum range facts ---

theorem crcStep_lt (c : Nat) (h : c < 4294967296) : crcStep c < 4294967296 := by
  unfold crcStep
  by_cases h2 : c % 2 = 1
  · rw [if_pos h2]
    have h32 : (4294967296 : Nat) = 2 ^ 32 := by norm_num
    rw [h32]
    exact Nat.xor_lt_two_pow (by norm_num) (by omega)
  · rw [if_neg h2]
    omega

theorem crcTableEntry_lt (n : Nat) (h : n < 4294967296) : crcTableEntry n < 4294967296 := by
  unfold crcTableEntry
  have hstep : ∀ m k, k < 4294967296 → crcStep^[m] k < 4294967296 := by
    intro m
    induction m with
    | zero => intro k hk; simpa using hk
    | succ m ihm =>
      intro k hk
      rw [Function.iterate_succ_apply]
      exact ihm _ (crcStep_lt k hk)
  exact hstep 8 n h

theorem crc32_fold_lt (l : List Nat) : ∀ crc, crc < 4294967296 →
    l.foldl (fun crc b => crcTableEntry ((crc ^^^ b) &&& 255) ^^^ (crc >>> 8)) crc
      < 4294967296 := by
  induction l with
  | nil => intro crc h; simpa using h
  | cons a l ihl =>
    intro crc h
    rw [List.foldl_cons]
    apply ihl
    have h1 : (crc ^^^ a) &&& 255 < 4294967296 :=
      lt_of_le_of_lt Nat.and_le_right (by norm_num)
    have h2 : crcTableEntry ((crc ^^^ a) &&& 255) < 4294967296 := crcTableEntry_lt _ h1
    have h3 : crc >>> 8 < 4294967296 := by
      rw [Nat.shiftRight_eq_div_pow]
      exact lt_of_le_of_lt (Nat.div_le_self _ _) h
    have h32 : (4294967296 : Nat) = 2 ^ 32 := by norm_num
    rw [h32] at h2 h3 ⊢
    exact Nat.xor_lt_two_pow h2 h3

theorem crc32_lt (b : List Nat) : crc32 b < 4294967296 := by
  unfold crc32
  have h1 := crc32_fold_lt b 0xffffffff (by norm_num)
  have h32 : (4294967296 : Nat) = 2 ^ 32 := by norm_num
  rw [h32] at h1 ⊢
  exact Nat.xor_lt_two_pow h1 (by norm_num)

-- --- A small opener for the decoder ---

theorem extract_open (b : List Nat) (h4 : 4 ≤ b.length) (hsig : readU32 b 0 = 0x89504E47) :
    extractPngMetadata b = .ok (extractWalk b.length b 8) := by
  unfold extractPngMetadata
  rw [if_pos h4, if_pos hsig]

-- --- Claims ---

/-- Claim C2, counterexample: the codec functions can throw.  `extractPngMetadata` on the
empty buffer throws a `RangeError` from `view.getUint32(0)` (modelled as `.error ()`),
and `writePngMetadata` throws on a valid-signature buffer whose walk reaches a position
with fewer than 4 bytes remaining, instead of signalling through the return value. -/
theorem claim_C2_counterexample :
    extractPngMetadata [] = .error ()
    ∧ writePngMetadata [137, 80, 78, 71, 13, 10, 26, 10, 0, 0] [] [] = .error () := by
  constructor
  · decide
  · decide

/-- Claim C2, amended: the decoder throws exactly on buffers shorter than 4 bytes (the
initial signature read); on longer buffers every failure is signalled by the return
value.  The encoder never throws on a stream made of the PNG signature followed by
well-formed chunks.  (On truncated chunk streams the walk's unchecked 4-byte length read
throws, per the counterexample.) -/
theorem claim_C2_no_throw :
    (∀ b : List Nat, 4 ≤ b.length → (extractPngMetadata b).isOk = true)
    ∧ (∀ b : List Nat, b.length < 4 → extractPngMetadata b = .error ())
    ∧ (∀ (cs : List Chunk) (k v : List Nat), (∀ c ∈ cs, WfChunk c) →
        (writePngMetadata (serializePng cs) k v).isOk = true) := by
  refine ⟨?_, ?_, ?_⟩
  · intro b h
    unfold extractPngMetadata
    rw [if_pos h]
    by_cases hs : readU32 b 0 = 0x89504E47 <;> simp [hs, Except.isOk, Except.toBool]
  · intro b h
    unfold extractPngMetadata
    rw [if_neg (by omega)]
  · intro cs k v h
    rw [writePng_serialized]
    have hb : serializePng cs = pngSig ++ chunksBytes cs := rfl
    have hlen8 : pngSig.length = 8 := rfl
    rw [hb]
    have := writeWalk_isOk cs pngSig (serializeChunk (textChunk k v))
      (pngSig ++ chunksBytes cs).length h (by rw [hlen8]; omega)
    rw [hlen8] at this
    exact this

/-- Claim C2, witness for the amended theorem at concrete inputs. -/
theorem claim_C2_witness :
    (extractPngMetadata P0).isOk = true
    ∧ extractPngMetadata [1, 2] = .error ()
    ∧ (writePngMetadata (serializePng [iendChunk]) [3] [4]).isOk = true :=
  ⟨claim_C2_no_throw.1 P0 (by decide),
   claim_C2_no_throw.2.1 [1, 2] (by decide),
   claim_C2_no_throw.2.2 [iendChunk] [3] [4] (by decide)⟩

/-- Claim C5, counterexample: on the input made of the 8 signature bytes plus two stray
bytes there is no `IHDR` chunk before the end of the stream, yet the encoder does not
return the input unchanged — the length read at position 8 throws (`RangeError`). -/
theorem claim_C5_counterexample :
    writePngMetadata [137, 80, 78, 71, 13, 10, 26, 10, 0, 0] [107] [118] = .error () := by
  decide

/-- Claim C5, amended: the encoder returns its input unchanged when the first four bytes
are not `137, 80, 78, 71`, and on any stream of the signature followed by well-formed
chunks none of which is `IHDR`.  (On truncated non-chunk tails it throws instead,
per the counterexample.) -/
theorem claim_C5_noop :
    (∀ b k v : List Nat,
      ¬(b.getD 0 0 = 137 ∧ b.getD 1 0 = 80 ∧ b.getD 2 0 = 78 ∧ b.getD 3 0 = 71) →
      writePngMetadata b k v = .ok b)
    ∧ (∀ (cs : List Chunk) (k v : List Nat), (∀ x ∈ cs, WfChunk x ∧ x.type ≠ IHDRB) →
        writePngMetadata (serializePng cs) k v = .ok (serializePng cs)) := by
  constructor
  · intro b k v h
    unfold writePngMetadata
    rw [if_neg h]
  · intro cs k v h
    exact writePng_noIHDR cs k v h

/-- Claim C5, witness for the amended theorem at concrete inputs. -/
theorem claim_C5_witness :
    writePngMetadata [1, 2, 3] [4] [5] = .ok [1, 2, 3]
    ∧ writePngMetadata (serializePng [iendChunk]) [6] [7] = .ok (serializePng [iendChunk]) :=
  ⟨claim_C5_noop.1 [1, 2, 3] [4] [5] (by decide),
   claim_C5_noop.2 [iendChunk] [6] [7] (by decide)⟩

/-- Claim C9: the checksum is deterministic (equal byte sequences give equal results),
its result fits in 32 bits, and the checksum of the empty sequence is 0. -/
theorem claim_C9_checksum :
    (∀ b₁ b₂ : List Nat, b₁ = b₂ → crc32 b₁ = crc32 b₂)
    ∧ crc32 [] = 0
    ∧ (∀ b : List Nat, crc32 b < 4294967296) :=
  ⟨fun _ _ h => congrArg crc32 h, by decide, crc32_lt⟩

/-- Claim C9, witness at a concrete input. -/
theorem claim_C9_witness : crc32 [2, 3] = crc32 [2, 3] :=
  claim_C9_checksum.1 [2, 3] [2, 3] rfl

/-- Claim C1, counterexample: the round-trip does not return `V` for every UTF-8 string
`V`.  For `V = "﻿"` (UTF-8 bytes EF BB BF), the decoder's `TextDecoder` strips the
leading byte-order mark, so decoding the encoded `P0` yields the empty string, not `V`. -/
theorem claim_C1_counterexample :
    writePngMetadata P0 bananaB bomB
      = .ok (serializePng [ihdrChunk, textChunk bananaB bomB, iendChunk])
    ∧ extractPngMetadata (serializePng [ihdrChunk, textChunk bananaB bomB, iendChunk])
      = .ok (some ([] : List Nat))
    ∧ ([] : List Nat) ≠ bomB := by
  refine ⟨?_, ?_, by decide⟩
  · exact writePng_insert [] [iendChunk] ihdrChunk bananaB bomB (by simp) (by decide) rfl
  · have hx := extract_serialized [ihdrChunk, textChunk bananaB bomB, iendChunk] (by decide)
    rw [hx]
    have hm1 : matchChunk ihdrChunk = none := by decide
    have hm2 : matchChunk (textChunk bananaB bomB) = some (bomStrip bomB) :=
      matchChunk_textChunk bananaB bomB (Or.inr rfl)
    have hb : bomStrip bomB = [] := by decide
    rw [hb] at hm2
    have hie : ¬(ihdrChunk.type = IENDB) := by decide
    simp only [scanChunks, hm1, hm2, hie, if_false]

/-- Claim C1, amended round-trip: for a PNG made of the signature, a run of well-formed
chunks that the decoder skips and that are not `IHDR`, an `IHDR` chunk, and further
well-formed chunks, and for keyword `"parameters"` or `"BananaProData"`, decoding the
encoder's output returns the stored value with a leading byte-order mark (if any)
removed — hence exactly `V` whenever `V` does not begin with U+FEFF. -/
theorem claim_C1_roundtrip (cs₁ cs₂ : List Chunk) (c : Chunk) (k v out : List Nat)
    (h1 : ∀ x ∈ cs₁, SkippedChunk x ∧ x.type ≠ IHDRB)
    (hwfc : WfChunk c) (he : c.type = IHDRB)
    (h2 : ∀ x ∈ cs₂, WfChunk x)
    (hk : k = parametersB ∨ k = bananaB)
    (hlen : (k ++ 0 :: v).length < 4294967296)
    (hw : writePngMetadata (serializePng (cs₁ ++ c :: cs₂)) k v = .ok out) :
    extractPngMetadata out = .ok (some (bomStrip v)) := by
  rw [writePng_insert cs₁ cs₂ c k v (fun x hx => ⟨(h1 x hx).1.1, (h1 x hx).2⟩) hwfc he]
    at hw
  have hout : out = serializePng (cs₁ ++ c :: textChunk k v :: cs₂) :=
    (Except.ok.inj hw).symm
  subst hout
  rw [extract_serialized _ (by
    intro x hx
    rcases List.mem_append.mp hx with hx1 | hx2
    · exact (h1 x hx1).1.1
    · rcases List.mem_cons.mp hx2 with rfl | hx3
      · exact hwfc
      · rcases List.mem_cons.mp hx3 with rfl | hx4
        · exact ⟨rfl, hlen⟩
        · exact h2 x hx4)]
  rw [scanChunks_append_skip cs₁ _ (fun x hx => ⟨(h1 x hx).1.2.1, (h1 x hx).1.2.2⟩)]
  have hmc : matchChunk c = none := matchChunk_of_type_ne c (by rw [he]; decide)
  have hcie : c.type ≠ IENDB := by rw [he]; decide
  simp only [scanChunks, hmc, if_neg hcie, matchChunk_textChunk k v hk]

/-- Claim C1, witness: round-trip at a concrete PNG and value. -/
theorem claim_C1_witness :
    extractPngMetadata (serializePng [ihdrChunk, textChunk bananaB [104, 105], iendChunk])
      = .ok (some (bomStrip [104, 105])) :=
  claim_C1_roundtrip [] [iendChunk] ihdrChunk bananaB [104, 105]
    (serializePng [ihdrChunk, textChunk bananaB [104, 105], iendChunk])
    (by simp) (by decide) rfl (by decide) (Or.inr rfl) (by decide) (by decide)

/-- Claim C3: on a PNG of signature, well-formed non-`IHDR` chunks, an `IHDR` chunk and
an arbitrary chunk tail, the encoder's output is the serialization of the same chunk
sequence with exactly the one new `tEXt` chunk inserted directly after `IHDR`: every
original chunk keeps its type, data and relative order, and no other bytes change. -/
theorem claim_C3_non_corruption (cs₁ cs₂ : List Chunk) (c : Chunk) (k v : List Nat)
    (h1 : ∀ x ∈ cs₁, WfChunk x ∧ x.type ≠ IHDRB) (hwfc : WfChunk c)
    (he : c.type = IHDRB) :
    writePngMetadata (serializePng (cs₁ ++ c :: cs₂)) k v =
      .ok (serializePng (cs₁ ++ c :: textChunk k v :: cs₂)) :=
  writePng_insert cs₁ cs₂ c k v h1 hwfc he

/-- Claim C3, witness at a concrete PNG. -/
theorem claim_C3_witness :
    writePngMetadata (serializePng [ihdrChunk, iendChunk]) parametersB [97] =
      .ok (serializePng [ihdrChunk, textChunk parametersB [97], iendChunk]) :=
  claim_C3_non_corruption [] [iendChunk] ihdrChunk parametersB [97]
    (by simp) (by decide) rfl

/-- Claim C4: the chunk the encoder inserts is exactly big-endian u32 `length`, ASCII
`"tEXt"`, the data `UTF-8(K) || 0x00 || UTF-8(V)`, and big-endian u32 `crc`, where
`length` is the byte length of the data (representable as u32 by hypothesis) and `crc`
is the checksum of `"tEXt" || data`. -/
theorem claim_C4_chunk_bytes (cs₁ cs₂ : List Chunk) (c : Chunk) (k v : List Nat)
    (h1 : ∀ x ∈ cs₁, WfChunk x ∧ x.type ≠ IHDRB) (hwfc : WfChunk c)
    (he : c.type = IHDRB) (hlen : (k ++ 0 :: v).length < 4294967296) :
    writePngMetadata (serializePng (cs₁ ++ c :: cs₂)) k v =
      .ok (serializePng (cs₁ ++ [c])
        ++ (u32be (k ++ 0 :: v).length ++ tEXtB ++ (k ++ 0 :: v)
            ++ u32be (crc32 (tEXtB ++ (k ++ 0 :: v))))
        ++ chunksBytes cs₂) := by
  rw [writePng_insert cs₁ cs₂ c k v h1 hwfc he]
  have : serializePng (cs₁ ++ c :: textChunk k v :: cs₂)
      = serializePng (cs₁ ++ [c])
        ++ (u32be (k ++ 0 :: v).length ++ tEXtB ++ (k ++ 0 :: v)
            ++ u32be (crc32 (tEXtB ++ (k ++ 0 :: v))))
        ++ chunksBytes cs₂ := by
    simp [serializePng, chunksBytes_append, chunksBytes, serializeChunk, textChunk,
      List.append_assoc]
  rw [this]

/-- Claim C4, witness at a concrete PNG. -/
theorem claim_C4_witness :
    writePngMetadata (serializePng [ihdrChunk, iendChunk]) bananaB [120] =
      .ok (serializePng [ihdrChunk]
        ++ (u32be (bananaB ++ 0 :: [120]).length ++ tEXtB ++ (bananaB ++ 0 :: [120])
            ++ u32be (crc32 (tEXtB ++ (bananaB ++ 0 :: [120]))))
        ++ chunksBytes [iendChunk]) :=
  claim_C4_chunk_bytes [] [iendChunk] ihdrChunk bananaB [120]
    (by simp) (by decide) rfl (by decide)

/-- Claim C6: from a valid signature, after walking any run of skipped well-formed
chunks, a remaining tail that cannot hold a chunk header, or whose declared length plus
CRC would extend past the buffer, makes the decoder stop and return the absent value. -/
theorem claim_C6_truncation (cs : List Chunk) (trunc : List Nat)
    (hcs : ∀ c ∈ cs, SkippedChunk c) (h1 : trunc ≠ [])
    (h2 : trunc.length < 8 ∨ trunc.length < 12 + readU32 trunc 0) :
    extractPngMetadata (pngSig ++ chunksBytes cs ++ trunc) = .ok none := by
  have hlen8 : pngSig.length = 8 := rfl
  have hlenB : (pngSig ++ chunksBytes cs ++ trunc).length
      = 8 + (chunksBytes cs).length + trunc.length := by
    simp only [List.length_append, hlen8]
    try omega
  have h4 : 4 ≤ (pngSig ++ chunksBytes cs ++ trunc).length := by omega
  have hsig : readU32 (pngSig ++ chunksBytes cs ++ trunc) 0 = 0x89504E47 := rfl
  rw [extract_open _ h4 hsig]
  have hskip := extractWalk_skip cs pngSig trunc
    (pngSig ++ chunksBytes cs ++ trunc).length hcs (Nat.le_add_right _ _)
  rw [hlen8] at hskip
  rw [hskip]
  exact congrArg Except.ok
    (extractWalk_truncated _ (pngSig ++ chunksBytes cs) trunc h1 h2)

/-- Claim C6, witness: one well-formed `IHDR` chunk followed by a 2-byte tail. -/
theorem claim_C6_witness :
    extractPngMetadata (pngSig ++ chunksBytes [ihdrChunk] ++ [0, 0]) = .ok none :=
  claim_C6_truncation [ihdrChunk] [0, 0] (by decide) (by decide) (Or.inl (by decide))

/-- Claim C7: the decoder returns the absent value (not an error) on a serialized PNG
whose chunks carry no recognized keyword; and the walk stops at the first `IEND` chunk,
returning the absent value whatever bytes follow it. -/
theorem claim_C7_absence :
    (∀ cs : List Chunk, (∀ c ∈ cs, WfChunk c) → (∀ c ∈ cs, Unrecognized c) →
        extractPngMetadata (serializePng cs) = .ok none)
    ∧ (∀ (cs : List Chunk) (c : Chunk) (junk : List Nat),
        (∀ x ∈ cs, SkippedChunk x) → WfChunk c → c.type = IENDB →
        extractPngMetadata (pngSig ++ chunksBytes cs ++ serializeChunk c ++ junk)
          = .ok none) := by
  constructor
  · intro cs hwf hun
    rw [extract_serialized cs hwf]
    exact congrArg Except.ok
      (scanChunks_none cs (fun c hc => unrecognized_matchChunk c (hun c hc)))
  · intro cs c junk hsk hwfc he
    have h12 := chunksBytes_length_ge cs (fun x hx => (hsk x hx).1)
    have hsc := serializeChunk_length c hwfc.1
    have hlen8 : pngSig.length = 8 := rfl
    have hlenB : (pngSig ++ chunksBytes cs ++ serializeChunk c ++ junk).length
        = 8 + (chunksBytes cs).length + (12 + c.data.length) + junk.length := by
      simp only [List.length_append, hsc, hlen8]
      try omega
    have h4 : 4 ≤ (pngSig ++ chunksBytes cs ++ serializeChunk c ++ junk).length := by omega
    have hsig : readU32 (pngSig ++ chunksBytes cs ++ serializeChunk c ++ junk) 0
        = 0x89504E47 := rfl
    rw [extract_open _ h4 hsig]
    have hassoc : pngSig ++ chunksBytes cs ++ serializeChunk c ++ junk
        = pngSig ++ chunksBytes cs ++ (serializeChunk c ++ junk) := by
      simp [List.append_assoc]
    rw [hassoc]
    have hskip := extractWalk_skip cs pngSig (serializeChunk c ++ junk)
      (pngSig ++ chunksBytes cs ++ (serializeChunk c ++ junk)).length hsk
      (Nat.le_add_right _ _)
    rw [hlen8] at hskip
    rw [hskip]
    have hlenB2 : (pngSig ++ chunksBytes cs ++ (serializeChunk c ++ junk)).length
        = 8 + (chunksBytes cs).length + (12 + c.data.length) + junk.length := by
      simp only [List.length_append, hsc, hlen8]
      try omega
    obtain ⟨g, hg⟩ : ∃ g,
        (pngSig ++ chunksBytes cs ++ (serializeChunk c ++ junk)).length - cs.length
          = g + 1 := by
      refine ⟨(pngSig ++ chunksBytes cs ++ (serializeChunk c ++ junk)).length
        - cs.length - 1, ?_⟩
      omega
    rw [hg]
    have hback : pngSig ++ chunksBytes cs ++ (serializeChunk c ++ junk)
        = (pngSig ++ chunksBytes cs) ++ serializeChunk c ++ junk := by
      simp [List.append_assoc]
    rw [hback]
    exact congrArg Except.ok (extractWalk_step_iend g (pngSig ++ chunksBytes cs) junk c
      hwfc (matchChunk_of_type_ne c (by rw [he]; decide)) he)

/-- Claim C7, witness: the minimal PNG `P0` decodes to the absent value, and an `IEND`
chunk stops the walk even with trailing garbage. -/
theorem claim_C7_witness :
    extractPngMetadata P0 = .ok none
    ∧ extractPngMetadata
        (pngSig ++ chunksBytes [ihdrChunk] ++ serializeChunk iendChunk ++ [9, 9, 9])
        = .ok none :=
  ⟨claim_C7_absence.1 [ihdrChunk, iendChunk] (by decide) (by decide),
   claim_C7_absence.2 [ihdrChunk] iendChunk [9, 9, 9] (by decide) (by decide) rfl⟩

/-- Claim C8, concrete scenario: encoding the minimal PNG `P0` with keyword
`"BananaProData"` and the JSON value yields a buffer 12 + len(data) bytes longer, and
decoding it returns exactly the JSON string. -/
theorem claim_C8_concrete :
    writePngMetadata P0 bananaB jsonB = .ok P0banana
    ∧ P0banana.length = P0.length + 12 + (bananaB ++ 0 :: jsonB).length
    ∧ extractPngMetadata P0banana = .ok (some jsonB) := by
  refine ⟨?_, ?_, ?_⟩
  · exact writePng_insert [] [iendChunk] ihdrChunk bananaB jsonB (by simp) (by decide) rfl
  · have e1 := serializeChunk_length ihdrChunk rfl
    have e2 := serializeChunk_length (textChunk bananaB jsonB) rfl
    have e4 : (textChunk bananaB jsonB).data = bananaB ++ 0 :: jsonB := rfl
    rw [e4] at e2
    have e3 := serializeChunk_length iendChunk rfl
    show (serializePng [ihdrChunk, textChunk bananaB jsonB, iendChunk]).length
      = (serializePng [ihdrChunk, iendChunk]).length + 12 + (bananaB ++ 0 :: jsonB).length
    rw [serializePng_length, serializePng_length]
    simp only [chunksBytes, List.length_append, List.length_nil, e1, e2, e3]
    omega
  · have hx := extract_serialized [ihdrChunk, textChunk bananaB jsonB, iendChunk] (by decide)
    rw [show P0banana = serializePng [ihdrChunk, textChunk bananaB jsonB, iendChunk]
      from rfl, hx]
    have hm1 : matchChunk ihdrChunk = none := by decide
    have hm2 : matchChunk (textChunk bananaB jsonB) = some (bomStrip jsonB) :=
      matchChunk_textChunk bananaB jsonB (Or.inr rfl)
    have hb : bomStrip jsonB = jsonB := by decide
    rw [hb] at hm2
    have hie : ¬(ihdrChunk.type = IENDB) := by decide
    simp only [scanChunks, hm1, hm2, hie, if_false]

/-- Claim C10 (implicit): a `tEXt` chunk whose data contains no null byte is silently
skipped by the decoder — it yields no payload and the walk continues to the next chunk,
so decoding is the same as if the chunk were absent. -/
theorem claim_C10_no_null_skipped (cs₁ : List Chunk) (c : Chunk) (cs₂ : List Chunk)
    (h1 : ∀ x ∈ cs₁, SkippedChunk x) (hwfc : WfChunk c) (hty : c.type = tEXtB)
    (hnz : ∀ x ∈ c.data, x ≠ 0) (h2 : ∀ x ∈ cs₂, WfChunk x) :
    extractPngMetadata (serializePng (cs₁ ++ c :: cs₂))
      = extractPngMetadata (serializePng (cs₁ ++ cs₂)) := by
  have hwf1 : ∀ x ∈ cs₁ ++ c :: cs₂, WfChunk x := by
    intro x hx
    rcases List.mem_append.mp hx with hx1 | hx2
    · exact (h1 x hx1).1
    · rcases List.mem_cons.mp hx2 with rfl | hx3
      · exact hwfc
      · exact h2 x hx3
  have hwf2 : ∀ x ∈ cs₁ ++ cs₂, WfChunk x := by
    intro x hx
    rcases List.mem_append.mp hx with hx1 | hx2
    · exact (h1 x hx1).1
    · exact h2 x hx2
  rw [extract_serialized _ hwf1, extract_serialized _ hwf2]
  have hskip : ∀ ds, scanChunks (cs₁ ++ ds) = scanChunks ds := fun ds =>
    scanChunks_append_skip cs₁ ds (fun x hx => ⟨(h1 x hx).2.1, (h1 x hx).2.2⟩)
  rw [hskip, hskip]
  have hmc : matchChunk c = none := by
    unfold matchChunk
    rw [if_pos hty, findNull_of_no_zero c.data hnz]
  have hcie : c.type ≠ IENDB := by rw [hty]; decide
  simp only [scanChunks, hmc, if_neg hcie]

/-- Claim C10, witness: a null-free `tEXt` chunk before `IEND` decodes the same as the
stream without it. -/
theorem claim_C10_witness :
    extractPngMetadata (serializePng [⟨tEXtB, [1, 2, 3], 0⟩, iendChunk])
      = extractPngMetadata (serializePng [iendChunk]) :=
  claim_C10_no_null_skipped [] ⟨tEXtB, [1, 2, 3], 0⟩ [iendChunk]
    (by simp) (by decide) rfl (by decide) (by decide)
